import Mathlib

/-!
Verification of the EdTech potential-customer identification pipeline.

The development shallowly embeds the three ranking approaches of the
notebook identify_potential_customers.ipynb: the need-score ranker
(Approach 1), the market-penetration ranker (Approach 2) and the
nearest-neighbor matcher (Approach 3), together with the helper
functions of the accompanying membership module.
-/

namespace EdTech

/-! ### Approach 3: distance matrix

The notebook computes the all-pairs squared-Euclidean distance matrix as

  normX = norm(X,axis=1).reshape((n,1))**2
  normY = norm(Y,axis=1).reshape((m,1))**2
  M = normX.dot(onesm.T) - 2*X.dot(Y.T) + onesn.dot(normY.T)

where onesn and onesm are column vectors of ones.  We embed the matrix
operands and the products literally.
-/

/-- Dense matrix product over the reals, the dot method of numpy arrays. -/
noncomputable def matDot {a b c : ℕ} (A : Fin a → Fin b → ℝ) (B : Fin b → Fin c → ℝ) :
    Fin a → Fin c → ℝ :=
  fun i j => ∑ k, A i k * B k j

/-- Matrix transpose, the T attribute of numpy arrays. -/
def matT {a b : ℕ} (A : Fin a → Fin b → ℝ) : Fin b → Fin a → ℝ :=
  fun i j => A j i

/-- The column vector of ones, np.ones((r,1)). -/
def onesCol (r : ℕ) : Fin r → Fin 1 → ℝ :=
  fun _ _ => 1

/-- The column vector of squared row norms, norm(X,axis=1).reshape((n,1))**2:
the L2 norm of each row of X, squared. -/
noncomputable def rowNormSq {n p : ℕ} (X : Fin n → Fin p → ℝ) : Fin n → Fin 1 → ℝ :=
  fun i _ => Real.sqrt (∑ k, X i k ^ 2) ^ 2

/-- The distance matrix of the notebook:
M = normX.dot(onesm.T) - 2*X.dot(Y.T) + onesn.dot(normY.T). -/
noncomputable def M {n m p : ℕ} (X : Fin n → Fin p → ℝ) (Y : Fin m → Fin p → ℝ) :
    Fin n → Fin m → ℝ :=
  fun i j =>
    matDot (rowNormSq X) (matT (onesCol m)) i j
      - 2 * matDot X (matT Y) i j
      + matDot (onesCol n) (matT (rowNormSq Y)) i j

/-- Direct squared-difference summation: the brute-force squared Euclidean
distance between two feature vectors. -/
noncomputable def sqDistBrute {p : ℕ} (x y : Fin p → ℝ) : ℝ :=
  ∑ k, (x k - y k) ^ 2

theorem rowNormSq_eq {n p : ℕ} (X : Fin n → Fin p → ℝ) (i : Fin n) (t : Fin 1) :
    rowNormSq X i t = ∑ k, X i k ^ 2 := by
  have h : (0 : ℝ) ≤ ∑ k, X i k ^ 2 :=
    Finset.sum_nonneg fun k _ => sq_nonneg (X i k)
  simp [rowNormSq, Real.sq_sqrt h]

theorem M_eq_sqDistBrute {n m p : ℕ} (X : Fin n → Fin p → ℝ) (Y : Fin m → Fin p → ℝ)
    (i : Fin n) (j : Fin m) : M X Y i j = sqDistBrute (X i) (Y j) := by
  have hx : matDot (rowNormSq X) (matT (onesCol m)) i j = ∑ k, X i k ^ 2 := by
    simp [matDot, matT, onesCol, rowNormSq_eq]
  have hy : matDot (onesCol n) (matT (rowNormSq Y)) i j = ∑ k, Y j k ^ 2 := by
    simp [matDot, matT, onesCol, rowNormSq_eq]
  have hxy : matDot X (matT Y) i j = ∑ k, X i k * Y j k := by
    simp [matDot, matT]
  have hexp : ∀ k : Fin p, (X i k - Y j k) ^ 2
      = X i k ^ 2 - 2 * (X i k * Y j k) + Y j k ^ 2 := fun k => by ring
  unfold M sqDistBrute
  rw [hx, hy, hxy, Finset.sum_congr rfl fun k _ => hexp k]
  rw [Finset.sum_add_distrib, Finset.sum_sub_distrib, Finset.mul_sum]

/-- C1: every entry of the distance matrix computed by the algebraic shortcut
M = normX 1^T - 2 X Y^T + 1 normY^T equals the squared Euclidean distance
between the corresponding rows computed by direct squared-difference
summation. -/
theorem C1_distance_matrix_shortcut_eq_brute_force
    {n m p : ℕ} (X : Fin n → Fin p → ℝ) (Y : Fin m → Fin p → ℝ)
    (i : Fin n) (j : Fin m) :
    M X Y i j = sqDistBrute (X i) (Y j) :=
  M_eq_sqDistBrute X Y i j

/-- C4: in exact arithmetic every entry of the distance matrix is
non-negative, and an entry is zero exactly when the two feature rows it
compares are identical. -/
theorem C4_distance_nonneg_and_zero_iff_equal
    {n m p : ℕ} (X : Fin n → Fin p → ℝ) (Y : Fin m → Fin p → ℝ)
    (i : Fin n) (j : Fin m) :
    0 ≤ M X Y i j ∧ (M X Y i j = 0 ↔ ∀ k, X i k = Y j k) := by
  rw [M_eq_sqDistBrute X Y i j]
  unfold sqDistBrute
  constructor
  · exact Finset.sum_nonneg fun k _ => sq_nonneg _
  · rw [Finset.sum_eq_zero_iff_of_nonneg fun k _ => sq_nonneg _]
    constructor
    · intro h k
      have hk := h k (Finset.mem_univ k)
      have := pow_eq_zero_iff (n := 2) (by norm_num) |>.mp hk
      linarith [sub_eq_zero.mp this]
    · intro h k _
      rw [h k]
      ring

/-! ### Approach 3: matching

The notebook finds the most similar member for each non-member column:

  match_index = []
  matched_euclidean = []
  for j in trange(m, ...):
      vec = M[:,j]
      i = np.argwhere(vec == np.min(vec))
      match_index.append(i[0][0])
      matched_euclidean.append(np.min(vec))

np.argwhere lists the indices where the condition holds in ascending
order, so i[0][0] is the smallest such index.  The matching is generic in
the entries of the distance matrix, exactly as the loop is.
-/

section Matching

variable {α : Type} [LinearOrder α]

/-- The value np.min(vec) of a non-empty vector: the minimum of its entries. -/
def npMin {n : ℕ} (vec : Fin (n + 1) → α) : α :=
  (Finset.univ : Finset (Fin (n + 1))).inf' Finset.univ_nonempty vec

/-- The list np.argwhere(vec == v) of indices at which vec equals v, in
ascending index order. -/
def argwhereEq {n : ℕ} (vec : Fin n → α) (v : α) : List (Fin n) :=
  (List.finRange n).filter fun i => decide (vec i = v)

/-- The matching loop of the notebook: for each non-member column j of the
distance matrix, append the first index attaining the column minimum to
match_index and the column minimum itself to matched_euclidean. -/
def matchStep {n m : ℕ} (D : Fin (n + 1) → Fin m → α) :
    List (Fin (n + 1)) × List α :=
  (List.finRange m).foldl
    (fun acc j =>
      (acc.1 ++ [(argwhereEq (fun i => D i j) (npMin fun i => D i j)).headI],
        acc.2 ++ [npMin fun i => D i j]))
    ([], [])

theorem foldl_append_pair {β γ δ : Type} (f : β → γ) (g : β → δ) :
    ∀ (l : List β) (a : List γ) (b : List δ),
      l.foldl (fun acc x => (acc.1 ++ [f x], acc.2 ++ [g x])) (a, b)
        = (a ++ l.map f, b ++ l.map g)
  | [], a, b => by simp
  | x :: l, a, b => by
    simp [List.foldl_cons, foldl_append_pair f g l]

theorem matchStep_eq_map {n m : ℕ} (D : Fin (n + 1) → Fin m → α) :
    matchStep D
      = ((List.finRange m).map fun j =>
            (argwhereEq (fun i => D i j) (npMin fun i => D i j)).headI,
          (List.finRange m).map fun j => npMin fun i => D i j) := by
  unfold matchStep
  rw [foldl_append_pair]
  simp

theorem npMin_le {n : ℕ} (vec : Fin (n + 1) → α) (i : Fin (n + 1)) :
    npMin vec ≤ vec i :=
  Finset.inf'_le vec (Finset.mem_univ i)

theorem npMin_mem {n : ℕ} (vec : Fin (n + 1) → α) :
    ∃ i, npMin vec = vec i := by
  obtain ⟨i, -, h⟩ := Finset.exists_mem_eq_inf'
    (Finset.univ_nonempty : (Finset.univ : Finset (Fin (n + 1))).Nonempty) vec
  exact ⟨i, h⟩

theorem mem_argwhereEq {n : ℕ} (vec : Fin n → α) (v : α) (i : Fin n) :
    i ∈ argwhereEq vec v ↔ vec i = v := by
  simp [argwhereEq, List.mem_filter, List.mem_finRange]

theorem argwhereEq_sorted {n : ℕ} (vec : Fin n → α) (v : α) :
    (argwhereEq vec v).Pairwise (· < ·) :=
  (List.pairwise_lt_finRange n).sublist (List.filter_sublist _)

theorem headI_le_of_pairwise_lt {n : ℕ} :
    ∀ (l : List (Fin (n + 1))), l.Pairwise (· < ·) → ∀ i ∈ l, l.headI ≤ i
  | [], _, i, hi => absurd hi (List.not_mem_nil i)
  | a :: t, hp, i, hi => by
    rcases List.mem_cons.mp hi with h | h
    · simp [h]
    · exact le_of_lt ((List.pairwise_cons.mp hp).1 i h)

/-- The first index at which a vector attains a value that it takes
somewhere is a least such index. -/
theorem argwhereEq_headI_spec {n : ℕ} (vec : Fin (n + 1) → α) (v : α)
    (hv : ∃ i, vec i = v) :
    vec (argwhereEq vec v).headI = v
      ∧ ∀ i, vec i = v → (argwhereEq vec v).headI ≤ i := by
  obtain ⟨i0, h0⟩ := hv
  have hne : argwhereEq vec v ≠ [] := by
    intro h
    have := (mem_argwhereEq vec v i0).mpr h0
    rw [h] at this
    exact List.not_mem_nil i0 this
  have hmem : (argwhereEq vec v).headI ∈ argwhereEq vec v := by
    cases h : argwhereEq vec v with
    | nil => exact absurd h hne
    | cons a t => simp [h]
  refine ⟨(mem_argwhereEq vec v _).mp hmem, fun i hi => ?_⟩
  exact headI_le_of_pairwise_lt _ (argwhereEq_sorted vec v) i
    ((mem_argwhereEq vec v i).mpr hi)

end Matching

theorem getElem?_map_finRange {m : ℕ} {γ : Type} (f : Fin m → γ) (j : Fin m) :
    ((List.finRange m).map f)[(j : ℕ)]? = some (f j) := by
  rw [List.getElem?_map]
  have hj : (j : ℕ) < (List.finRange m).length := by
    simp [List.length_finRange]
  rw [List.getElem?_eq_getElem hj]
  simp [List.getElem_finRange, Fin.eta]

/-- C2: for a non-empty customer table, the matching step records for each
non-customer column j the minimum of the column as matched_euclidean and
the smallest customer row index attaining that minimum as match_index,
and both output lists have exactly one entry per non-customer row. -/
theorem C2_matching_records_first_argmin
    {n m : ℕ} {α : Type} [LinearOrder α] (D : Fin (n + 1) → Fin m → α) (j : Fin m) :
    (matchStep D).1.length = m
      ∧ (matchStep D).2.length = m
      ∧ (matchStep D).2[(j : ℕ)]? = some (npMin fun i => D i j)
      ∧ (∃ i0, (matchStep D).1[(j : ℕ)]? = some i0
          ∧ D i0 j = npMin (fun i => D i j)
          ∧ ∀ i, D i j = npMin (fun i => D i j) → i0 ≤ i) := by
  rw [matchStep_eq_map]
  have hget : ∀ {γ : Type} (f : Fin m → γ),
      ((List.finRange m).map f)[(j : ℕ)]? = some (f j) :=
    fun f => getElem?_map_finRange f j
  obtain ⟨imin, hmin⟩ := npMin_mem fun i => D i j
  obtain ⟨hattain, hleast⟩ :=
    argwhereEq_headI_spec (fun i => D i j) (npMin fun i => D i j) ⟨imin, hmin.symm⟩
  refine ⟨by simp, by simp, hget _, ⟨_, hget _, hattain, hleast⟩⟩

/-! ### Approach 3: normalization and attachment

Both tables hold the UnitID in their first column and the p feature
columns after it.  The notebook scales the feature columns in place:

  members_norm = norm(members_df.iloc[:,1:], axis=0)
  members_df.iloc[:,1:] /= members_norm
  non_members_df.iloc[:,1:] /= members_norm

norm(., axis=0) is the column-wise L2 norm over the rows of the member
table.  We embed a table as a function on row and column indices, with
column 0 the UnitID and column k.succ the k-th feature.
-/

/-- Column-wise L2 norms of the feature columns of the member table,
norm(members_df.iloc[:,1:], axis=0). -/
noncomputable def members_norm {r p : ℕ} (df : Fin r → Fin (p + 1) → ℝ) (k : Fin p) : ℝ :=
  Real.sqrt (∑ i, df i k.succ ^ 2)

/-- In-place division of the feature columns by given per-column divisors,
df.iloc[:,1:] /= nu.  Column 0 is untouched. -/
noncomputable def scaleFeatureCols {r p : ℕ} (df : Fin r → Fin (p + 1) → ℝ)
    (nu : Fin p → ℝ) : Fin r → Fin (p + 1) → ℝ :=
  fun i k => Fin.cases (df i 0) (fun kk => df i kk.succ / nu kk) k

/-- The normalization step of the notebook: the member-column norms are
computed once from the member table, then the feature columns of both
tables are divided by them. -/
noncomputable def normalizeStep {n r p : ℕ} (mdf : Fin n → Fin (p + 1) → ℝ)
    (ndf : Fin r → Fin (p + 1) → ℝ) :
    (Fin n → Fin (p + 1) → ℝ) × (Fin r → Fin (p + 1) → ℝ) :=
  let nu := members_norm mdf
  (scaleFeatureCols mdf nu, scaleFeatureCols ndf nu)

/-- C3: the divisor of each feature column is the L2 norm of that column
over the customer rows only, and both the customer and the non-customer
table are divided column-wise by that same customer-derived norm; the
non-customer columns are not scaled by their own norms. -/
theorem C3_normalization_uses_customer_norms_for_both_tables
    {n r p : ℕ} (mdf : Fin n → Fin (p + 1) → ℝ) (ndf : Fin r → Fin (p + 1) → ℝ)
    (k : Fin p) (i : Fin n) (j : Fin r) :
    (normalizeStep mdf ndf).1 i k.succ
        = mdf i k.succ / Real.sqrt (∑ i2, mdf i2 k.succ ^ 2)
      ∧ (normalizeStep mdf ndf).2 j k.succ
        = ndf j k.succ / Real.sqrt (∑ i2, mdf i2 k.succ ^ 2) := by
  constructor <;> simp [normalizeStep, scaleFeatureCols, members_norm]

/-- The distance matrix of Approach 3, computed from the feature columns of
the two normalized tables. -/
noncomputable def approach3Dist {n r p : ℕ} (mdf : Fin (n + 1) → Fin (p + 1) → ℝ)
    (ndf : Fin r → Fin (p + 1) → ℝ) : Fin (n + 1) → Fin r → ℝ :=
  M (fun i k => (normalizeStep mdf ndf).1 i k.succ)
    (fun j k => (normalizeStep mdf ndf).2 j k.succ)

/-- The match_index list produced by the matching loop of Approach 3. -/
noncomputable def a3_match_index {n r p : ℕ} (mdf : Fin (n + 1) → Fin (p + 1) → ℝ)
    (ndf : Fin r → Fin (p + 1) → ℝ) : List (Fin (n + 1)) :=
  (matchStep (approach3Dist mdf ndf)).1

/-- The matched_euclidean list produced by the matching loop of Approach 3,
attached to the non-member table as distance_with_closest_members. -/
noncomputable def a3_matched_euclidean {n r p : ℕ} (mdf : Fin (n + 1) → Fin (p + 1) → ℝ)
    (ndf : Fin r → Fin (p + 1) → ℝ) : List ℝ :=
  (matchStep (approach3Dist mdf ndf)).2

/-- The column attached to the non-member table as
unitid_of_most_similar_member: the UnitID entries of the (normalized)
member table at the matched row indices, in match order, after a
positional index reset. -/
noncomputable def a3_unitid_most_similar {n r p : ℕ} (mdf : Fin (n + 1) → Fin (p + 1) → ℝ)
    (ndf : Fin r → Fin (p + 1) → ℝ) : List ℝ :=
  (a3_match_index mdf ndf).map fun i => (normalizeStep mdf ndf).1 i 0

/-- C10: normalization and matching touch only the feature columns.  The
UnitID column of both tables is unchanged by normalization, and for every
non-customer row j the attached matched identifier and distance at
position j are exactly the original UnitID of the matched customer row
and the minimum of column j of the distance matrix, so the attached
columns align row-for-row with the rows they were computed for. -/
theorem C10_unitid_and_row_alignment_preserved
    {n r p : ℕ} (mdf : Fin (n + 1) → Fin (p + 1) → ℝ)
    (ndf : Fin r → Fin (p + 1) → ℝ) :
    (∀ i, (normalizeStep mdf ndf).1 i 0 = mdf i 0)
      ∧ (∀ j, (normalizeStep mdf ndf).2 j 0 = ndf j 0)
      ∧ (∀ j : Fin r, ∃ i0 : Fin (n + 1),
          (a3_match_index mdf ndf)[(j : ℕ)]? = some i0
            ∧ (a3_unitid_most_similar mdf ndf)[(j : ℕ)]? = some (mdf i0 0)
            ∧ (a3_matched_euclidean mdf ndf)[(j : ℕ)]?
                = some (npMin fun i => approach3Dist mdf ndf i j)) := by
  have hid : ∀ i, (normalizeStep mdf ndf).1 i 0 = mdf i 0 := fun i => by
    simp [normalizeStep, scaleFeatureCols]
  refine ⟨hid, fun j => by simp [normalizeStep, scaleFeatureCols], fun j => ?_⟩
  have hms := matchStep_eq_map (approach3Dist mdf ndf)
  have hmi : a3_match_index mdf ndf
      = (List.finRange r).map fun j2 =>
          (argwhereEq (fun i => approach3Dist mdf ndf i j2)
            (npMin fun i => approach3Dist mdf ndf i j2)).headI := by
    unfold a3_match_index
    rw [hms]
  have hme : a3_matched_euclidean mdf ndf
      = (List.finRange r).map fun j2 => npMin fun i => approach3Dist mdf ndf i j2 := by
    unfold a3_matched_euclidean
    rw [hms]
  refine ⟨(argwhereEq (fun i => approach3Dist mdf ndf i j)
      (npMin fun i => approach3Dist mdf ndf i j)).headI, ?_, ?_, ?_⟩
  · rw [hmi]
    exact getElem?_map_finRange _ j
  · unfold a3_unitid_most_similar
    rw [hmi, List.map_map]
    have := getElem?_map_finRange
      (f := fun j2 => (normalizeStep mdf ndf).1
        ((argwhereEq (fun i => approach3Dist mdf ndf i j2)
          (npMin fun i => approach3Dist mdf ndf i j2)).headI) 0) j
    rw [Function.comp_def] at *
    rw [this, hid]
  · rw [hme]
    exact getElem?_map_finRange _ j

/-! ### Sorting and truncation

Both Approach 1 and Approach 3 end with
df.sort_values(column, ascending=...).head(n).  We embed sort_values with
a stable merge sort on the sort key and head(n) as List.take.
-/

/-- df.sort_values(key, ascending=True): the rows sorted by ascending key. -/
def sort_values {ρ α : Type} [LinearOrder α] (key : ρ → α) (rows : List ρ) : List ρ :=
  rows.mergeSort fun a b => decide (key a ≤ key b)

/-- df.sort_values(key, ascending=False): the rows sorted by descending key. -/
def sort_values_desc {ρ α : Type} [LinearOrder α] (key : ρ → α) (rows : List ρ) : List ρ :=
  rows.mergeSort fun a b => decide (key b ≤ key a)

/-- df.head(n): the first n rows. -/
def dfHead {ρ : Type} (n : ℕ) (rows : List ρ) : List ρ :=
  rows.take n

theorem sort_values_perm {ρ α : Type} [LinearOrder α] (key : ρ → α) (rows : List ρ) :
    (sort_values key rows).Perm rows :=
  List.mergeSort_perm rows _

theorem sort_values_pairwise {ρ α : Type} [LinearOrder α] (key : ρ → α) (rows : List ρ) :
    (sort_values key rows).Pairwise fun a b => key a ≤ key b := by
  have h : (rows.mergeSort fun a b => decide (key a ≤ key b)).Pairwise
      (fun a b => decide (key a ≤ key b) = true) :=
    List.sorted_mergeSort
      (fun a b c h1 h2 => by
        simp only [decide_eq_true_eq] at *
        exact le_trans h1 h2)
      (fun a b => by
        simp only [Bool.or_eq_true, decide_eq_true_eq]
        exact le_total (key a) (key b))
      rows
  exact h.imp fun hab => by simpa using hab

theorem sort_values_desc_perm {ρ α : Type} [LinearOrder α] (key : ρ → α) (rows : List ρ) :
    (sort_values_desc key rows).Perm rows :=
  List.mergeSort_perm rows _

theorem sort_values_desc_pairwise {ρ α : Type} [LinearOrder α] (key : ρ → α)
    (rows : List ρ) :
    (sort_values_desc key rows).Pairwise fun a b => key b ≤ key a := by
  have h : (rows.mergeSort fun a b => decide (key b ≤ key a)).Pairwise
      (fun a b => decide (key b ≤ key a) = true) :=
    List.sorted_mergeSort
      (fun a b c h1 h2 => by
        simp only [decide_eq_true_eq] at *
        exact le_trans h2 h1)
      (fun a b => by
        simp only [Bool.or_eq_true, decide_eq_true_eq]
        exact le_total (key b) (key a))
      rows
  exact h.imp fun hab => by simpa using hab

/-- One row of the non-member table at the end of Approach 3, after the
matched distance and identifier columns have been attached. -/
structure A3Row where
  unitid : ℝ
  distance_with_closest_members : ℝ
  unitid_of_most_similar_member : ℝ

/-- The final selection of Approach 3:
potential_members = non_members_df.sort_values(
  distance_with_closest_members, ascending=True).head(n). -/
noncomputable def a3_potential_members (rows : List A3Row) (n : ℕ) : List A3Row :=
  dfHead n (sort_values (fun row => row.distance_with_closest_members) rows)

/-- C5: the final output of Approach 3 is the non-customer rows sorted
ascending by distance_with_closest_members and truncated to the first n
rows: at most n rows are returned, the kept rows together with the
dropped rows are a permutation of the input rows, and every kept row has
a distance at most that of every dropped row. -/
theorem C5_approach3_output_sorted_ascending_truncated
    (rows : List A3Row) (n : ℕ) :
    (a3_potential_members rows n).length ≤ n
      ∧ rows.Perm (a3_potential_members rows n
          ++ (sort_values (fun row => row.distance_with_closest_members) rows).drop n)
      ∧ ∀ x ∈ a3_potential_members rows n,
          ∀ y ∈ (sort_values (fun row => row.distance_with_closest_members) rows).drop n,
            x.distance_with_closest_members ≤ y.distance_with_closest_members := by
  set key : A3Row → ℝ := fun row => row.distance_with_closest_members with hkey
  refine ⟨?_, ?_, ?_⟩
  · simp [a3_potential_members, dfHead]
  · have hperm := sort_values_perm key rows
    have : a3_potential_members rows n ++ (sort_values key rows).drop n
        = sort_values key rows := by
      simp [a3_potential_members, dfHead]
    rw [this]
    exact hperm.symm
  · intro x hx y hy
    have hp := sort_values_pairwise key rows
    rw [← List.take_append_drop n (sort_values key rows)] at hp
    have := (List.pairwise_append.mp hp).2.2
    exact this x (by simpa [a3_potential_members, dfHead] using hx) y hy

/-! ### Approach 1: final selection

After the need scores are computed, the notebook runs

  vars_to_keep = [UnitID, Institution Name, City ..., State ..., need_score]
  need_scores_df = subset_df[vars_to_keep]
  n = 100
  potential_members = need_scores_df.sort_values(need_score, ascending=False).head(n)

We embed a data frame as a list of column names together with a list of
rows, each row giving the value held under every column name.
-/

/-- A data frame: a list of column labels plus a list of rows.  A row maps
every column label to its value. -/
structure DF where
  cols : List String
  rows : List (String → ℚ)

/-- Column projection, df[cs]. -/
def dfSelect (df : DF) (cs : List String) : DF :=
  { cols := cs, rows := df.rows }

/-- The columns kept by Approach 1, vars_to_keep of the notebook. -/
def vars_to_keep : List String :=
  ["UnitID", "Institution Name", "City location of institution (HD2020)",
   "State abbreviation (HD2020)", "need_score"]

/-- The intermediate working columns created while building the need
scores: the proportions, the diversity indices and the standardized
feature columns. -/
def workingCols : List String :=
  ["p_men", "p_women", "p_native_american", "p_asian", "p_black", "p_hispanic",
   "p_hawaiian_pacific", "p_white", "diversity_gender", "diversity_race",
   "scaled_diversity_gender", "scaled_diversity_race", "scaled_financial_aid",
   "scaled_distance_educ", "scaled_total_ug"]

/-- The final selection of Approach 1: project to vars_to_keep, sort by
need_score descending and keep the first n rows. -/
def approach1Output (subset_df : DF) (n : ℕ) : DF :=
  let need_scores_df := dfSelect subset_df vars_to_keep
  { cols := need_scores_df.cols,
    rows := dfHead n (sort_values_desc (fun row => row "need_score") need_scores_df.rows) }

/-- C8: the output of Approach 1 is the non-customer rows sorted descending
by need_score and truncated to the first n rows, and its columns are
exactly the identifier, descriptive and score columns of vars_to_keep,
with every intermediate working column dropped. -/
theorem C8_approach1_output_sorted_descending_and_projected
    (subset_df : DF) (n : ℕ) :
    (approach1Output subset_df n).cols = vars_to_keep
      ∧ (∀ c ∈ workingCols, c ∉ (approach1Output subset_df n).cols)
      ∧ (approach1Output subset_df n).rows.length ≤ n
      ∧ (approach1Output subset_df n).rows.Pairwise
          (fun a b => b "need_score" ≤ a "need_score")
      ∧ subset_df.rows.Perm ((approach1Output subset_df n).rows
          ++ (sort_values_desc (fun row => row "need_score") subset_df.rows).drop n)
      ∧ ∀ x ∈ (approach1Output subset_df n).rows,
          ∀ y ∈ (sort_values_desc (fun row => row "need_score") subset_df.rows).drop n,
            y "need_score" ≤ x "need_score" := by
  set key : (String → ℚ) → ℚ := fun row => row "need_score" with hkey
  have hpw := sort_values_desc_pairwise key subset_df.rows
  have hsplit := List.take_append_drop n (sort_values_desc key subset_df.rows)
  refine ⟨rfl, ?_, ?_, ?_, ?_, ?_⟩
  · intro c hc
    revert hc
    show c ∈ workingCols → c ∉ vars_to_keep
    revert c
    decide
  · simp [approach1Output, dfHead]
  · exact hpw.sublist (List.take_sublist n _)
  · have : (approach1Output subset_df n).rows
        ++ (sort_values_desc key subset_df.rows).drop n
        = sort_values_desc key subset_df.rows := by
      simp [approach1Output, dfHead, dfSelect]
    rw [this]
    exact (sort_values_desc_perm key subset_df.rows).symm
  · intro x hx y hy
    rw [← hsplit] at hpw
    exact (List.pairwise_append.mp hpw).2.2 x
      (by simpa [approach1Output, dfHead, dfSelect] using hx) y hy

/-! ### Approach 2: market penetration

The notebook groups the tagged institution table by state and membership
status, pivots to one row per state with absent combinations filled with
count 0, and computes

  market_df[total] = market_df[member] + market_df[non_member]
  market_df[market_penetration_score] = market_df[member]/market_df[total]

We embed the tagged table as a list of (state, membership status) pairs,
one per institution, and the pivoted table as one row per distinct state
carrying the two counts.
-/

/-- Membership status: every eligible institution is tagged either member
or non_member. -/
inductive Status where
  | member
  | non_member
deriving DecidableEq

/-- Number of institutions of a state with member status: the pivoted
count, 0 when the combination is absent. -/
def memberCount (rows : List (String × Status)) (s : String) : ℕ :=
  (rows.filter fun r => decide (r.1 = s ∧ r.2 = Status.member)).length

/-- Number of institutions of a state with non_member status: the pivoted
count, 0 when the combination is absent. -/
def nonMemberCount (rows : List (String × Status)) (s : String) : ℕ :=
  (rows.filter fun r => decide (r.1 = s ∧ r.2 = Status.non_member)).length

/-- The distinct states appearing in the tagged table: the index of the
pivoted table. -/
def regions (rows : List (String × Status)) : List String :=
  (rows.map Prod.fst).dedup

/-- One row of the pivoted market table with its derived columns. -/
structure MarketRow where
  state : String
  member : ℕ
  non_member : ℕ
  total : ℕ
  market_penetration_score : ℚ
deriving DecidableEq

/-- The market table: one row per distinct state, carrying the two pivoted
counts, their total, and the penetration score member/total. -/
def market_df (rows : List (String × Status)) : List MarketRow :=
  (regions rows).map fun s =>
    { state := s
      member := memberCount rows s
      non_member := nonMemberCount rows s
      total := memberCount rows s + nonMemberCount rows s
      market_penetration_score :=
        (memberCount rows s : ℚ) / ((memberCount rows s + nonMemberCount rows s : ℕ) : ℚ) }

theorem memberCount_cons (r : String × Status) (t : List (String × Status)) (s : String) :
    memberCount (r :: t) s
      = (if r.1 = s ∧ r.2 = Status.member then 1 else 0) + memberCount t s := by
  by_cases h : r.1 = s ∧ r.2 = Status.member
  · simp [memberCount, List.filter_cons, h]
    omega
  · simp [memberCount, List.filter_cons, h]

theorem region_total_pos (rows : List (String × Status)) (s : String)
    (hs : s ∈ regions rows) : 0 < memberCount rows s + nonMemberCount rows s := by
  rw [regions, List.mem_dedup] at hs
  obtain ⟨r, hr, hr1⟩ := List.mem_map.mp hs
  cases h2 : r.2 with
  | member =>
    have : 0 < memberCount rows s := by
      rw [memberCount]
      refine List.length_pos.mpr (List.ne_nil_of_mem (a := r) ?_)
      rw [List.mem_filter]
      exact ⟨hr, by simp [hr1, h2]⟩
    omega
  | non_member =>
    have : 0 < nonMemberCount rows s := by
      rw [nonMemberCount]
      refine List.length_pos.mpr (List.ne_nil_of_mem (a := r) ?_)
      rw [List.mem_filter]
      exact ⟨hr, by simp [hr1, h2]⟩
    omega

theorem sum_memberCount_finset (S : Finset String) :
    ∀ rows : List (String × Status),
      (∀ r ∈ rows, r.2 = Status.member → r.1 ∈ S) →
      ∑ s in S, memberCount rows s
        = (rows.filter fun r => decide (r.2 = Status.member)).length := by
  intro rows
  induction rows with
  | nil =>
    intro _
    simp [memberCount]
  | cons r t ih =>
    intro hcov
    have hcovt : ∀ x ∈ t, x.2 = Status.member → x.1 ∈ S :=
      fun x hx => hcov x (List.mem_cons_of_mem r hx)
    have hsplit : ∑ s in S, memberCount (r :: t) s
        = (∑ s in S, if r.1 = s ∧ r.2 = Status.member then 1 else 0)
          + ∑ s in S, memberCount t s := by
      rw [← Finset.sum_add_distrib]
      exact Finset.sum_congr rfl fun s _ => memberCount_cons r t s
    rw [hsplit, ih hcovt, List.filter_cons]
    by_cases h2 : r.2 = Status.member
    · have hr1 : r.1 ∈ S := hcov r (List.mem_cons_self r t) h2
      have hone : (∑ s in S, if r.1 = s ∧ r.2 = Status.member then 1 else 0) = 1 := by
        have hcong : ∀ s ∈ S, (if r.1 = s ∧ r.2 = Status.member then (1 : ℕ) else 0)
            = if r.1 = s then 1 else 0 := fun s _ => by simp [h2]
        rw [Finset.sum_congr rfl hcong, Finset.sum_ite_eq S r.1 fun _ => (1 : ℕ)]
        simp [hr1]
      rw [hone]
      simp [h2, Nat.add_comm]
    · have hzero : (∑ s in S, if r.1 = s ∧ r.2 = Status.member then 1 else 0) = 0 :=
        Finset.sum_eq_zero fun s _ => by simp [h2]
      rw [hzero]
      simp [h2]

theorem sum_member_over_regions (rows : List (String × Status)) :
    ((market_df rows).map MarketRow.member).sum
      = (rows.filter fun r => decide (r.2 = Status.member)).length := by
  have h1 : ((market_df rows).map MarketRow.member).sum
      = (((rows.map Prod.fst).dedup).map fun s => memberCount rows s).sum := by
    rw [market_df, regions, List.map_map]
    rfl
  have h2 : (((rows.map Prod.fst).dedup).map fun s => memberCount rows s).sum
      = ∑ s in (rows.map Prod.fst).toFinset, memberCount rows s := by
    rw [← List.sum_toFinset _ (List.nodup_dedup (rows.map Prod.fst))]
    congr 1
    ext x
    simp [List.mem_dedup]
  rw [h1, h2]
  exact sum_memberCount_finset _ rows fun r hr _ =>
    List.mem_toFinset.mpr (List.mem_map_of_mem Prod.fst hr)

/-- C6: every row of the market table scores its region as
member count divided by the sum of the member and non-member counts, the
score lies in the unit interval, and the member counts of all regions sum
to the number of member institutions in the input table. -/
theorem C6_market_penetration_score_and_count_sum
    (rows : List (String × Status)) (mr : MarketRow) (hmr : mr ∈ market_df rows) :
    mr.market_penetration_score = (mr.member : ℚ) / ((mr.member : ℚ) + (mr.non_member : ℚ))
      ∧ 0 ≤ mr.market_penetration_score
      ∧ mr.market_penetration_score ≤ 1
      ∧ ((market_df rows).map MarketRow.member).sum
          = (rows.filter fun r => decide (r.2 = Status.member)).length := by
  obtain ⟨s, hs, hrow⟩ := List.mem_map.mp hmr
  subst hrow
  have hpos := region_total_pos rows s hs
  have hposQ : (0 : ℚ) < ((memberCount rows s + nonMemberCount rows s : ℕ) : ℚ) := by
    exact_mod_cast hpos
  refine ⟨by push_cast; ring_nf, ?_, ?_, sum_member_over_regions rows⟩
  · exact div_nonneg (by positivity) (le_of_lt hposQ)
  · rw [div_le_one hposQ]
    exact_mod_cast Nat.le_add_right _ _

/-- A concrete two-row tagged table with one member and one non-member in
the same state, used to exercise the market table. -/
def sampleTagged : List (String × Status) :=
  [("TX", Status.member), ("TX", Status.non_member)]

/-- The market row that market_df produces for the sample table. -/
def sampleMarketRow : MarketRow :=
  { state := "TX"
    member := memberCount sampleTagged "TX"
    non_member := nonMemberCount sampleTagged "TX"
    total := memberCount sampleTagged "TX" + nonMemberCount sampleTagged "TX"
    market_penetration_score :=
      (memberCount sampleTagged "TX" : ℚ)
        / ((memberCount sampleTagged "TX" + nonMemberCount sampleTagged "TX" : ℕ) : ℚ) }

/-- C6 witness: the theorem applied to the sample two-row table and its
market row. -/
theorem C6_market_penetration_witness :
    sampleMarketRow ∈ market_df sampleTagged
      ∧ sampleMarketRow.market_penetration_score
          = (sampleMarketRow.member : ℚ)
            / ((sampleMarketRow.member : ℚ) + (sampleMarketRow.non_member : ℚ))
      ∧ 0 ≤ sampleMarketRow.market_penetration_score
      ∧ sampleMarketRow.market_penetration_score ≤ 1
      ∧ ((market_df sampleTagged).map MarketRow.member).sum
          = (sampleTagged.filter fun r => decide (r.2 = Status.member)).length := by
  have hmem : sampleMarketRow ∈ market_df sampleTagged :=
    List.mem_map.mpr ⟨"TX", by decide, rfl⟩
  obtain ⟨h1, h2, h3, h4⟩ :=
    C6_market_penetration_score_and_count_sum sampleTagged sampleMarketRow hmem
  exact ⟨hmem, h1, h2, h3, h4⟩

/-- C7: for every region present in the input table the penetration
computation has a positive denominator, a region with no members scores 0
and a region with no non-members scores 1. -/
theorem C7_no_division_by_zero_for_present_regions
    (rows : List (String × Status)) (s : String) (hs : s ∈ regions rows) :
    ∃ mr ∈ market_df rows, mr.state = s
      ∧ 1 ≤ mr.total
      ∧ (mr.member = 0 → mr.market_penetration_score = 0)
      ∧ (mr.non_member = 0 → mr.market_penetration_score = 1) := by
  refine ⟨_, List.mem_map.mpr ⟨s, hs, rfl⟩, rfl, region_total_pos rows s hs, ?_, ?_⟩
  · intro h0
    have h0n : memberCount rows s = 0 := h0
    show (memberCount rows s : ℚ)
        / ((memberCount rows s + nonMemberCount rows s : ℕ) : ℚ) = 0
    rw [h0n]
    simp
  · intro h0
    have h0n : nonMemberCount rows s = 0 := h0
    have hpos := region_total_pos rows s hs
    show (memberCount rows s : ℚ)
        / ((memberCount rows s + nonMemberCount rows s : ℕ) : ℚ) = 1
    rw [h0n, Nat.add_zero]
    have hne : ((memberCount rows s : ℕ) : ℚ) ≠ 0 :=
      Nat.cast_ne_zero.mpr (by omega)
    exact div_self hne

/-- C7 witness: the theorem applied to a one-row table whose only region
contains a single non-member institution. -/
theorem C7_no_division_witness :
    ∃ mr ∈ market_df [("CA", Status.non_member)], mr.state = "CA"
      ∧ 1 ≤ mr.total
      ∧ (mr.member = 0 → mr.market_penetration_score = 0)
      ∧ (mr.non_member = 0 → mr.market_penetration_score = 1) :=
  C7_no_division_by_zero_for_present_regions [("CA", Status.non_member)] "CA" (by decide)

/-! ### Approach 1: need-score standardization

The notebook calls membership.compute_need_scores(subset_df,
standardized_dict, vars_flipped).  The membership module itself is not
part of the repository snapshot, so the function is modelled from the
spec: z-score each listed raw feature over the non-customer population,
flip the sign of the listed standardized columns, sum row-wise into
need_score, and fail explicitly on a zero-variance feature.
-/

/-- Error raised when a feature has zero variance during standardization. -/
inductive NeedScoreError where
  | degenerateInput
deriving DecidableEq

/-- Mean of a list of feature values. -/
noncomputable def listMean (xs : List ℝ) : ℝ :=
  xs.sum / xs.length

/-- Population variance of a list of feature values. -/
noncomputable def popVariance (xs : List ℝ) : ℝ :=
  ((xs.map fun x => (x - listMean xs) ^ 2).sum) / xs.length

/-- Population standard deviation of a list of feature values. -/
noncomputable def popStd (xs : List ℝ) : ℝ :=
  Real.sqrt (popVariance xs)

/-- The values of one raw feature column across the non-customer table. -/
def featureColumn (df : List (String → ℝ)) (c : String) : List ℝ :=
  df.map fun row => row c

/-- Modelled from the spec: membership.compute_need_scores, whose source
(the membership module) is missing from the repository snapshot.  For
each raw feature of the mapping it computes a z-score across the
non-customer population, multiplies the listed standardized columns by
-1, and sums the standardized values row-wise into need_score; if any
listed feature has zero population standard deviation it fails
explicitly with a DegenerateInputError instead of dividing by zero. -/
noncomputable def compute_need_scores (df : List (String → ℝ))
    (standardized_dict : List (String × String)) (vars_flipped : List String) :
    Except NeedScoreError (List (String → ℝ)) :=
  if standardized_dict.any fun q => decide (popStd (featureColumn df q.1) = 0) then
    .error .degenerateInput
  else
    .ok (df.map fun row => fun c =>
      match standardized_dict.find? fun q => q.2 == c with
      | some q =>
          (if vars_flipped.contains q.2 then -1 else 1)
            * ((row q.1 - listMean (featureColumn df q.1)) / popStd (featureColumn df q.1))
      | none =>
          if c == "need_score" then
            (standardized_dict.map fun q =>
              (if vars_flipped.contains q.2 then -1 else 1)
                * ((row q.1 - listMean (featureColumn df q.1))
                    / popStd (featureColumn df q.1))).sum
          else row c)

/-- C9: if any raw feature listed in the standardization mapping has zero
population standard deviation across the non-customer pool, the
need-score standardization fails explicitly with DegenerateInputError
rather than dividing by zero or propagating the degenerate value into
the downstream ranking. -/
theorem C9_zero_variance_fails_explicitly
    (df : List (String → ℝ)) (standardized_dict : List (String × String))
    (vars_flipped : List String) (raw scaled : String)
    (hmem : (raw, scaled) ∈ standardized_dict)
    (hstd : popStd (featureColumn df raw) = 0) :
    compute_need_scores df standardized_dict vars_flipped
      = .error .degenerateInput := by
  have hcond : (standardized_dict.any fun q =>
      decide (popStd (featureColumn df q.1) = 0)) = true :=
    List.any_eq_true.mpr ⟨(raw, scaled), hmem, by simp [hstd]⟩
  simp [compute_need_scores, hcond]

/-- C9 witness: the theorem applied to a one-row table whose single listed
feature is constant, hence of zero variance. -/
theorem C9_zero_variance_witness :
    (("x", "scaled_x") ∈ [("x", "scaled_x")]
        ∧ popStd (featureColumn [fun _ => (0 : ℝ)] "x") = 0)
      ∧ compute_need_scores [fun _ => (0 : ℝ)] [("x", "scaled_x")] []
          = .error .degenerateInput := by
  have hmem : ("x", "scaled_x") ∈ [("x", "scaled_x")] := List.mem_singleton.mpr rfl
  have hstd : popStd (featureColumn [fun _ => (0 : ℝ)] "x") = 0 := by
    simp [popStd, popVariance, listMean, featureColumn]
  exact ⟨⟨hmem, hstd⟩,
    C9_zero_variance_fails_explicitly _ _ _ "x" "scaled_x" hmem hstd⟩

end EdTech
